import Mathlib
set_option maxHeartbeats 1000000
set_option linter.unusedVariables false

/-!
Verification of the text-normalization and chunking pipeline of
`markitdown-pdf-separators`.

The development shallowly embeds the Python sources:
  * `packages/markitdown/text_chunker.py` (`TextChunker`),
  * `packages/markitdown/src/markitdown/converters/_pdf_converter.py`
    (`PdfConverter`), and
  * `packages/markitdown/test_header_footer_removal.py` (the standalone
    `clean_text` / `looks_like_margin_mark` used by the test driver).

Strings are modelled as `List Char` (`Str`), with ASCII semantics for
Python's `str.strip`, `str.split`, `str.isdigit`, `str.lower` and the
regular expressions `\s+`, `(?<=[.!?])\s+`, `\d+` and `\b\w+\b`.
The external tiktoken tokenizer (`TextChunker.token_count`) is opaque and
is modelled by a parameter `tc : Str → Nat`.
The float ratio comparison `single_char / len(tokens) >= 0.80` in
`looks_like_margin_mark` is modelled exactly in the rationals as
`4 * len(tokens) ≤ 5 * single_char`.
-/
abbrev Str := List Char

/-- ASCII Python whitespace: the characters matched by `\s` and stripped
by `str.strip()`. -/
def isSpaceChar (c : Char) : Bool :=
  c = ' ' || c = '\t' || c = '\n' || c = '\r' || c = '\x0b' || c = '\x0c'

/-- Remove trailing whitespace (the right half of `str.strip()`). -/
def dropTrailing (l : Str) : Str :=
  (l.reverse.dropWhile isSpaceChar).reverse

/-- Python `str.strip()`: drop leading and trailing whitespace. -/
def stripChars (l : Str) : Str :=
  dropTrailing (l.dropWhile isSpaceChar)

/-- One step of `re.sub(r"\s+", " ", ·)`: collapse every whitespace run to
a single `' '`. -/
def squeezeWS : Str → Str
  | [] => []
  | [c] => if isSpaceChar c then [' '] else [c]
  | a :: b :: rest =>
    if isSpaceChar a && isSpaceChar b then squeezeWS (b :: rest)
    else (if isSpaceChar a then ' ' else a) :: squeezeWS (b :: rest)

/-- `text.replace('\n', ' ').replace('\r', ' ')`, character-wise. -/
def replNL (c : Char) : Char :=
  if c = '\n' || c = '\r' then ' ' else c

namespace PdfConv

/-- `PdfConverter.clean_text` (_pdf_converter.py lines 179-190): newline
replacement, whitespace-run collapsing, and strip; empty input short-circuits. -/
def clean_text (text : Str) : Str :=
  if text = [] then []
  else stripChars (squeezeWS (text.map replNL))

end PdfConv

/-! ### Whitespace-normalization invariants -/
/-- Every whitespace character of `l` is a plain `' '`. -/
def OnlyPlain (l : Str) : Prop := ∀ c ∈ l, isSpaceChar c = true → c = ' '

/-- No two adjacent whitespace characters. -/
def NoDouble : Str → Prop
  | a :: b :: rest => ¬(isSpaceChar a = true ∧ isSpaceChar b = true) ∧ NoDouble (b :: rest)
  | _ => True

/-- The first character (if any) is not whitespace. -/
def HeadNotSp (l : Str) : Prop := ∀ c, l.head? = some c → isSpaceChar c = false

/-- The last character (if any) is not whitespace. -/
def LastNotSp (l : Str) : Prop := ∀ c, l.getLast? = some c → isSpaceChar c = false

/-- A fully normalized string: what `PdfConv.clean_text` outputs. -/
def Normalized (l : Str) : Prop :=
  OnlyPlain l ∧ NoDouble l ∧ HeadNotSp l ∧ LastNotSp l

/-! ### Sentence segmentation: `_split_into_sentences`
(text_chunker.py lines 57-64 and _pdf_converter.py lines 267-274, identical
in both classes). The regex `(?<=[.!?])\s+` splits at every maximal
whitespace run that immediately follows a sentence-final mark. -/
/-- A sentence-final mark for the splitting regex: `.`, `!` or `?`. -/
def isSentEnd (c : Char) : Bool :=
  c = '.' || c = '!' || c = '?'

/-- First character is whitespace (the lookahead part of the separator). -/
def headIsSpace : Str → Bool
  | [] => false
  | d :: _ => isSpaceChar d

/-- Scanner for `re.split(r'(?<=[.!?])\s+', text)` as a one-character-at-a-
time state machine (structural recursion, so it evaluates by `decide`).
In mode `false`, `acc` is the reversed current fragment; at a sentence-final
mark followed by whitespace the fragment is closed (keeping the mark) and
mode `true` consumes the rest of the whitespace run. -/
def splitSentSM : Bool → Str → Str → List Str
  | _, acc, [] => [acc.reverse]
  | true, _, _ :: rest =>
    if headIsSpace rest then splitSentSM true [] rest
    else splitSentSM false [] rest
  | false, acc, c :: rest =>
    if isSentEnd c && headIsSpace rest then
      (acc.reverse ++ [c]) :: splitSentSM true [] rest
    else splitSentSM false (c :: acc) rest

/-- The regex scanner proper: mode `false` of `splitSentSM`. -/
def splitSentAux (acc l : Str) : List Str := splitSentSM false acc l

/-- `TextChunker._split_into_sentences` / `PdfConverter._split_into_sentences`:
regex split, then `[s.strip() for s in sentences if s.strip()]`. -/
def _split_into_sentences (text : Str) : List Str :=
  ((splitSentAux [] text).map stripChars).filter (fun s => decide (s ≠ []))

/-- `sep.join(pieces)` (Python `str.join`). -/
def joinWith (sep : Str) : List Str → Str
  | [] => []
  | [x] => x
  | x :: rest => x ++ sep ++ joinWith sep rest

/-- Scanner invariant: where the current fragment starts and ends.
`acc` is the reversed fragment accumulated so far. -/
def StartOK (acc l : Str) : Prop :=
  (acc = [] → l ≠ [] ∧ HeadNotSp l) ∧
  (acc ≠ [] → ∀ c, acc.getLast? = some c → isSpaceChar c = false) ∧
  (l = [] → acc ≠ [] → ∀ c, acc.head? = some c → isSpaceChar c = false)

/-- The accumulator loop of `TextChunker.chunk_text`: `cur` is
`current_chunk`, `curTok` is `current_tokens`; flushed chunks pass through
`_clean_text` = `str.strip`. -/
def chunkLoop (tc : Str → Nat) (token_limit : Int) :
    List Str → Str → Nat → List Str
  | [], cur, _ => if cur = [] then [] else [stripChars cur]
  | s :: rest, cur, curTok =>
    if stripChars s = [] then chunkLoop tc token_limit rest cur curTok
    else if (curTok : Int) + (tc (stripChars s) : Int) > token_limit then
      if cur = [] then
        chunkLoop tc token_limit rest (stripChars s) (tc (stripChars s))
      else
        stripChars cur ::
          chunkLoop tc token_limit rest (stripChars s) (tc (stripChars s))
    else
      if cur = [] then
        chunkLoop tc token_limit rest (stripChars s) (curTok + tc (stripChars s))
      else
        chunkLoop tc token_limit rest (cur ++ ' ' :: stripChars s)
          (curTok + tc (stripChars s))

/-- `TextChunker.chunk_text(text, token_limit=500, overlap_size=50)`:
sentence-respecting greedy packing.  `overlap_size` is accepted but unused,
exactly as in the source. -/
def chunk_text (tc : Str → Nat) (text : Str) (token_limit : Int)
    (overlap_size : Int) : List Str :=
  if text = [] then []
  else chunkLoop tc token_limit (_split_into_sentences text) [] 0

/-- Convenience: string literal to `Str`. -/
def str (s : String) : Str := s.toList

/-! ### The test driver cleaner (test_header_footer_removal.py lines 124-191):
`looks_like_margin_mark` plus vertical-watermark-block removal, followed by
the same whitespace normalization as `PdfConv.clean_text`. -/
/-- Python `text.split("\n")`. -/
def splitNl : Str → List Str
  | [] => [[]]
  | c :: rest =>
    if c = '\n' then [] :: splitNl rest
    else
      match splitNl rest with
      | [] => [[c]]
      | f :: fs => (c :: f) :: fs

/-- Python `str.split()` (split on whitespace runs, dropping empties), as a
state machine: `acc` is the reversed current token. -/
def wordsAux : Str → Str → List Str
  | acc, [] => if acc = [] then [] else [acc.reverse]
  | acc, c :: rest =>
    if isSpaceChar c then
      if acc = [] then wordsAux [] rest else acc.reverse :: wordsAux [] rest
    else wordsAux (c :: acc) rest

def wordsWS (l : Str) : List Str := wordsAux [] l

/-- `looks_like_margin_mark(line, min_tokens=8, ratio=0.80)` (test file
lines 124-135): at least 8 whitespace-separated tokens of which at least
80 percent are single characters.  The float ratio test is modelled exactly
in the rationals. -/
def looks_like_margin_mark (line : Str) : Bool :=
  if (wordsWS (stripChars line)).length < 8 then false
  else decide (4 * (wordsWS (stripChars line)).length ≤
    5 * ((wordsWS (stripChars line)).filter (fun t => decide (t.length = 1))).length)

/-- The vertical-watermark block condition on one line:
`len(lines[j].strip()) <= 2 and lines[j].strip()`. -/
def shortLine (l : Str) : Bool :=
  decide ((stripChars l).length ≤ 2) && decide (stripChars l ≠ [])

def headShort : List Str → Bool
  | [] => false
  | l2 :: _ => shortLine l2

/-- The watermark-stripping line loop of the test driver `clean_text`
(lines 153-181), as a state machine: mode `true` is inside a vertical
watermark block being dropped. -/
def wmAux : Bool → List Str → List Str
  | _, [] => []
  | true, _ :: rest => if headShort rest then wmAux true rest else wmAux false rest
  | false, ln :: rest =>
    if looks_like_margin_mark ln then wmAux false rest
    else if shortLine ln && decide (8 ≤ ((ln :: rest).takeWhile shortLine).length) then
      wmAux true rest
    else ln :: wmAux false rest

def watermarkPass (lines : List Str) : List Str := wmAux false lines

namespace TestFile

/-- The test driver `clean_text` (test_header_footer_removal.py lines
136-191): the watermark line pass on the newline-split form, rejoined with
newlines, then the same whitespace normalization as `PdfConv.clean_text`
(debug printing omitted). -/
def clean_text (text : Str) : Str :=
  if text = [] then []
  else
    stripChars (squeezeWS
      ((joinWith ['\n'] (watermarkPass (splitNl text))).map replNL))

end TestFile

/-! ### `PdfConverter._remove_headers_footers_simple`
(_pdf_converter.py lines 441-478): the fallback for documents without a
page-break marker. -/
/-- Python `str.isdigit()` (ASCII digits). -/
def pyIsDigit (l : Str) : Bool := decide (l ≠ []) && l.all Char.isDigit

/-- Python `str.lower()` (ASCII). -/
def toLowerStr (l : Str) : Str := l.map Char.toLower

/-- Python `pat in s` (substring containment). -/
def isSubstring : Str → Str → Bool
  | pat, [] => decide (pat = [])
  | pat, c :: rest => pat.isPrefixOf (c :: rest) || isSubstring pat rest

/-- The fixed boilerplate phrases compared by equality. -/
def header_footer_phrases : List Str :=
  [str "page", str "page of", str "confidential", str "draft", str "final"]

/-- The fixed legal keywords searched as substrings. -/
def header_footer_keywords : List Str :=
  [str "copyright", str "all rights reserved", str "proprietary"]

/-- The per-line boilerplate test of `_remove_headers_footers_simple`
(applied to `line.strip()`). -/
def isHeaderFooterLine (line : Str) : Bool :=
  pyIsDigit (stripChars line) ||
  decide ((stripChars line).length < 20) ||
  decide (toLowerStr (stripChars line) ∈ header_footer_phrases) ||
  header_footer_keywords.any (fun w => isSubstring w (toLowerStr (stripChars line)))

/-- The header loop: `for i in range(min(2, len(lines)))`, keeping the last
matching `i + 1`. -/
def headerCount (lines : List Str) : Nat :=
  (List.range (min 2 lines.length)).foldl
    (fun acc i => if isHeaderFooterLine (lines.getD i []) then i + 1 else acc) 0

/-- The footer loop: same, inspecting `lines[-(i+1)]`. -/
def footerCount (lines : List Str) : Nat :=
  (List.range (min 2 lines.length)).foldl
    (fun acc i =>
      if isHeaderFooterLine (lines.getD (lines.length - 1 - i) []) then i + 1
      else acc) 0

/-- `_remove_headers_footers_simple`: drop the first `headerCount` and the
last `footerCount` lines (each only when positive, as in the source). -/
def _remove_headers_footers_simple (text : Str) : Str :=
  let lines := splitNl text
  if lines.length ≤ 4 then text
  else
    let h := headerCount lines
    let f := footerCount lines
    let lines1 := if h > 0 then lines.drop h else lines
    let lines2 := if f > 0 then lines1.take (lines1.length - f) else lines1
    joinWith ['\n'] lines2

/-- The concrete 5-line document used for claim C5: only the second line
is boilerplate (a bare page number), yet the code also drops the first. -/
def sampleC5 : Str :=
  str "This first line is long enough to stay.\n7\nMiddle content line that is reasonably long.\nAnother interior content line that is long too.\nThe final line is also long enough to survive."

/-! ### `PdfConverter._remove_headers_footers_from_text` and
`_find_sentence_patterns` (_pdf_converter.py lines 192-331). -/
/-- `re.sub(r'\d+', 'N', s)` as a state machine: mode `true` is inside a
digit run already replaced by one `'N'`. -/
def maskAux : Bool → Str → Str
  | _, [] => []
  | true, c :: rest =>
    if c.isDigit then maskAux true rest else c :: maskAux false rest
  | false, c :: rest =>
    if c.isDigit then 'N' :: maskAux true rest else c :: maskAux false rest

def maskDigits (l : Str) : Str := maskAux false l

/-- `\w`: the word characters of the `\b\w+\b` token regex. -/
def isWordChar (c : Char) : Bool := c.isAlphanum || c = '_'

/-- `re.findall(r'\b\w+\b', s)`: the maximal word-character runs. -/
def wordRunsAux : Str → Str → List Str
  | acc, [] => if acc = [] then [] else [acc.reverse]
  | acc, c :: rest =>
    if isWordChar c then wordRunsAux (c :: acc) rest
    else if acc = [] then wordRunsAux [] rest
    else acc.reverse :: wordRunsAux [] rest

def findallWords (l : Str) : List Str := wordRunsAux [] l

/-- `set(re.findall(r'\b\w+\b', s))`, as a deduplicated list. -/
def wordSet (s : Str) : List Str := (findallWords s).dedup

/-- The fixed stop-word list of `_find_sentence_patterns`. -/
def stop_words : List Str :=
  [str "the", str "of", str "to", str "and", str "or", str "in", str "on",
   str "at", str "for", str "with", str "by", str "from", str "up",
   str "down", str "out", str "off", str "over", str "under", str "into",
   str "onto", str "upon", str "within", str "without", str "through",
   str "throughout", str "during", str "before", str "after", str "since",
   str "until", str "while", str "where", str "when", str "why", str "how",
   str "what", str "which", str "who", str "whom", str "whose", str "this",
   str "that", str "these", str "those", str "a", str "an", str "is",
   str "are", str "was", str "were", str "be", str "been", str "being",
   str "have", str "has", str "had", str "do", str "does", str "did",
   str "will", str "would", str "could", str "should", str "may",
   str "might", str "can", str "must", str "shall"]

/-- `len((set(words) & set(other_words)) - stop_words)`. -/
def meaningfulSharedCount (s other : Str) : Nat :=
  ((wordSet s).filter (fun t =>
    decide (t ∈ wordSet other) && decide (t ∉ stop_words))).length

/-- Strategy 1 of `_find_sentence_patterns` (lines 285-308): sentences
containing a digit that share at least 2 meaningful words with at least 2
other sentences (by position, `i != j`). -/
def strategy1Flags (sentences : List Str) : List Str :=
  ((List.range sentences.length).filter (fun i =>
    (sentences.getD i []).any Char.isDigit &&
    decide (wordSet (sentences.getD i []) ≠ []) &&
    decide (2 ≤ ((List.range sentences.length).filter (fun j =>
      decide (j ≠ i) &&
      decide (2 ≤ meaningfulSharedCount (sentences.getD i [])
        (sentences.getD j [])))).length))).map
    (fun i => sentences.getD i [])

/-- Strategy 2 of `_find_sentence_patterns` (lines 310-329): the
masked-structure heuristic.  A sentence at position `i` is flagged when its
digit-masked form has length at least 5, contains at least 2 `'N'`
characters, and coincides with the masked form of at least 2 other
positions `j != i`. -/
def strategy2Flags (sentences : List Str) : List Str :=
  ((List.range sentences.length).filter (fun i =>
    decide (5 ≤ (maskDigits (sentences.getD i [])).length) &&
    decide (2 ≤ (maskDigits (sentences.getD i [])).count 'N') &&
    decide (2 ≤ ((List.range sentences.length).filter (fun j =>
      decide (j ≠ i) &&
      decide (maskDigits (sentences.getD j []) =
        maskDigits (sentences.getD i [])))).length))).map
    (fun i => sentences.getD i [])

/-- `_find_sentence_patterns`: empty below 2 sentences, else the union of
the two strategies (modelled as list concatenation; membership agrees with
the Python set union). -/
def _find_sentence_patterns (sentences : List Str) : List Str :=
  if sentences.length < 2 then []
  else strategy1Flags sentences ++ strategy2Flags sentences

/-- `text.split('---')`. -/
def splitDashes : Str → List Str
  | [] => [[]]
  | '-' :: '-' :: '-' :: rest => [] :: splitDashes rest
  | c :: rest =>
    match splitDashes rest with
    | [] => [[c]]
    | f :: fs => (c :: f) :: fs

def pagesOf (text : Str) : List Str := splitDashes text

/-- The per-page sentence lists: pages are stripped, empty pages skipped,
the rest split into sentences. -/
def pageSentencesOf (text : Str) : List (List Str) :=
  (pagesOf text).filterMap (fun page =>
    if stripChars page = [] then none
    else some (_split_into_sentences (stripChars page)))

def allSentencesOf (text : Str) : List Str := (pageSentencesOf text).flatten

/-- `{sentence for sentence, count in Counter(all_sentences).items() if
count > 1}`: the exact-duplicate component, as a list whose membership is
"occurs at least twice in `all_sentences`". -/
def duplicate_sentences (text : Str) : List Str :=
  (allSentencesOf text).filter (fun s =>
    decide (2 ≤ (allSentencesOf text).count s))

def pattern_sentences (text : Str) : List Str :=
  _find_sentence_patterns (allSentencesOf text)

/-- `sentences_to_remove = duplicate_sentences | pattern_sentences`. -/
def sentences_to_remove (text : Str) : List Str :=
  duplicate_sentences text ++ pattern_sentences text

/-- Per page, keep only the sentences not in the removal set. -/
def cleanedPageSentencesOf (text : Str) : List (List Str) :=
  (pageSentencesOf text).map (fun ps =>
    ps.filter (fun s => decide (s ∉ sentences_to_remove text)))

/-- Re-join each page's survivors with spaces and drop empty pages. -/
def cleaned_pagesOf (text : Str) : List Str :=
  ((cleanedPageSentencesOf text).map (joinWith [' '])).filter
    (fun p => decide (stripChars p ≠ []))

/-- `_remove_headers_footers_from_text` (debug printing omitted): the
single-page fallback, or the multi-page pipeline re-joined with
`' --- '`. -/
def _remove_headers_footers_from_text (text : Str) : Str :=
  if (pagesOf text).length ≤ 1 then _remove_headers_footers_simple text
  else joinWith (str " --- ") (cleaned_pagesOf text)

/-- The concrete document for claim C3: the sentence `"A."` occurs twice
on the first page and on no other page. -/
def sampleC3 : Str := str "A. A. --- B."

/-- The concrete sentence list for claim C6: no digits at all, but two
literal `'N'` characters. -/
def sampleC6 : List Str := [str "NN abc", str "NN abc", str "NN abc"]

/-! ### `TextChunker._find_nearest_punctuation`
(text_chunker.py lines 66-115). -/
/-- `punctuations = ".!?;"`. -/
def punctuations : Str := str ".!?;"

/-- `is_within_number_or_abbreviation(content, index)`: a period between
two digits (decimal guard), or any period within offset -5..5 (excluding
0) of the position (abbreviation guard).  All accesses are modelled with
`getD`, guarded by the same bounds checks as the source. -/
def is_within_number_or_abbreviation (content : Str) (index : Nat) : Bool :=
  (decide (0 < index) && decide (index < content.length - 1) &&
    decide (content.getD index ' ' = '.') &&
    (content.getD (index - 1) ' ').isDigit &&
    (content.getD (index + 1) ' ').isDigit) ||
  ([-5, -4, -3, -2, -1, 1, 2, 3, 4, 5] : List Int).any (fun o =>
    decide (0 ≤ (index : Int) + o) &&
    decide ((index : Int) + o < (content.length : Int)) &&
    decide (content.getD ((index : Int) + o).toNat ' ' = '.'))

/-- The loop-body test of both scan directions: position `i` holds one of
`.!?;` and is not excluded by `is_within_number_or_abbreviation`. -/
def validBreakAt (content : Str) (i : Nat) : Bool :=
  decide (content.getD i ' ' ∈ punctuations) &&
  ! is_within_number_or_abbreviation content i

/-- The backward `while` loop: check `content[index-1]`, else decrement. -/
def findPunctBackward (content : Str) : Nat → Nat
  | 0 => 0
  | i + 1 => if validBreakAt content i then i + 1 else findPunctBackward content i

/-- The forward `while` loop, with an explicit step count: the loop runs
at most `content.length - index` times (the index strictly increases up to
the length), so with that fuel this function equals the Python loop. -/
def findPunctForwardAux (content : Str) : Nat → Nat → Nat
  | 0, index => index
  | fuel + 1, index =>
    if index < content.length then
      if validBreakAt content index then index + 1
      else findPunctForwardAux content fuel (index + 1)
    else index

/-- `_find_nearest_punctuation(content, index, direction="backward")`. -/
def _find_nearest_punctuation (content : Str) (index : Nat)
    (direction : String) : Nat :=
  if direction = "backward" then findPunctBackward content index
  else findPunctForwardAux content (content.length - index) index

/-- The concrete content for claim C7: the only valid mark is the period
at position 2. -/
def sampleC7 : Str := str "ab. cd"

theorem noDouble_tail {a : Char} {l : Str} (h : NoDouble (a :: l)) : NoDouble l := by
  cases l with
  | nil => trivial
  | cons b t => exact h.2

theorem noDouble_dropWhile (p : Char → Bool) {l : Str} (h : NoDouble l) :
    NoDouble (l.dropWhile p) := by
  induction l with
  | nil => trivial
  | cons a t ih =>
    rw [List.dropWhile_cons]
    by_cases hp : p a = true
    · simp only [hp, if_true]
      exact ih (noDouble_tail h)
    · simp only [hp, if_false]
      exact h

theorem noDouble_append_left {l₁ l₂ : Str} (h : NoDouble (l₁ ++ l₂)) : NoDouble l₁ := by
  induction l₁ with
  | nil => trivial
  | cons a t ih =>
    cases t with
    | nil => trivial
    | cons b t' =>
      refine ⟨h.1, ih ?_⟩
      exact h.2

theorem onlyPlain_sub {l₁ l₂ : Str} (hsub : ∀ c ∈ l₁, c ∈ l₂) (h : OnlyPlain l₂) :
    OnlyPlain l₁ := fun c hc hsp => h c (hsub c hc) hsp

/-! ### Basic lemmas about `stripChars` -/
theorem map_self_of {α : Type} {f : α → α} {l : List α} (h : ∀ a ∈ l, f a = a) :
    l.map f = l := by
  induction l with
  | nil => rfl
  | cons a t ih =>
    simp only [List.map_cons, h a (List.mem_cons_self a t),
      ih (fun b hb => h b (List.mem_cons_of_mem a hb))]

theorem dropWhile_eq_self_of_head {α : Type} {p : α → Bool} {l : List α}
    (h : ∀ c, l.head? = some c → p c = false) : l.dropWhile p = l := by
  cases l with
  | nil => rfl
  | cons a t =>
    have := h a rfl
    simp [List.dropWhile_cons, this]

theorem head_of_dropWhile {p : Char → Bool} {l : Str} {c : Char}
    (h : (l.dropWhile p).head? = some c) : p c = false := by
  have := List.head?_dropWhile_not p l
  rw [h] at this
  exact this

/-- `dropTrailing` yields a prefix of its argument. -/
theorem dropTrailing_eq_append (l : Str) : ∃ t, dropTrailing l ++ t = l := by
  obtain ⟨t, ht⟩ := List.dropWhile_suffix (l := l.reverse) isSpaceChar
  refine ⟨t.reverse, ?_⟩
  have := congrArg List.reverse ht
  simpa [dropTrailing, List.reverse_append] using this

theorem stripChars_nil : stripChars [] = [] := rfl

theorem mem_of_mem_stripChars {c : Char} {l : Str} (h : c ∈ stripChars l) : c ∈ l := by
  unfold stripChars at h
  obtain ⟨t, ht⟩ := dropTrailing_eq_append (l.dropWhile isSpaceChar)
  have h1 : c ∈ l.dropWhile isSpaceChar := by
    rw [← ht]; exact List.mem_append_left _ h
  exact (List.dropWhile_sublist (l := l) isSpaceChar).subset h1

theorem stripChars_head_not_space {l : Str} {c : Char}
    (h : (stripChars l).head? = some c) : isSpaceChar c = false := by
  unfold stripChars at h
  obtain ⟨t, ht⟩ := dropTrailing_eq_append (l.dropWhile isSpaceChar)
  have hne : dropTrailing (l.dropWhile isSpaceChar) ≠ [] := by
    intro hnil
    rw [hnil] at h
    exact Option.noConfusion h
  have hh : (l.dropWhile isSpaceChar).head? = some c := by
    rw [← ht]
    cases hd : dropTrailing (l.dropWhile isSpaceChar) with
    | nil => exact absurd hd hne
    | cons x xs =>
      rw [hd] at h
      simp only [List.head?_cons] at h
      simp [hd, h]
  exact head_of_dropWhile hh

theorem stripChars_last_not_space {l : Str} {c : Char}
    (h : (stripChars l).getLast? = some c) : isSpaceChar c = false := by
  have hrev : (stripChars l).reverse.head? = some c := by
    rw [List.head?_reverse]; exact h
  have : (stripChars l).reverse = (l.dropWhile isSpaceChar).reverse.dropWhile isSpaceChar := by
    simp [stripChars, dropTrailing]
  rw [this] at hrev
  exact head_of_dropWhile hrev

theorem stripChars_eq_self {l : Str} (h1 : HeadNotSp l) (h2 : LastNotSp l) :
    stripChars l = l := by
  unfold stripChars dropTrailing
  rw [dropWhile_eq_self_of_head h1]
  rw [dropWhile_eq_self_of_head (fun c hc => h2 c (by rwa [← List.head?_reverse]))]
  exact List.reverse_reverse l

theorem stripChars_idem (l : Str) : stripChars (stripChars l) = stripChars l :=
  stripChars_eq_self (fun _ hc => stripChars_head_not_space hc)
    (fun _ hc => stripChars_last_not_space hc)

/-- A strip-fixed string has a non-whitespace first character (if any). -/
theorem headNotSp_of_strip_fixed {l : Str} (hfix : stripChars l = l) :
    HeadNotSp l := fun _ hc => stripChars_head_not_space (by rwa [hfix])

theorem lastNotSp_of_strip_fixed {l : Str} (hfix : stripChars l = l) :
    LastNotSp l := fun _ hc => stripChars_last_not_space (by rwa [hfix])

/-! ### `squeezeWS` lemmas -/
theorem squeezeWS_cons_cons_sp {a b : Char} {r : Str}
    (ha : isSpaceChar a = true) (hb : isSpaceChar b = true) :
    squeezeWS (a :: b :: r) = squeezeWS (b :: r) := by
  simp [squeezeWS, ha, hb]

theorem squeezeWS_cons_cons {a b : Char} {r : Str}
    (h : ¬(isSpaceChar a = true ∧ isSpaceChar b = true)) :
    squeezeWS (a :: b :: r) =
      (if isSpaceChar a = true then ' ' else a) :: squeezeWS (b :: r) := by
  have hf : (isSpaceChar a && isSpaceChar b) = false := by
    cases hx : isSpaceChar a <;> cases hy : isSpaceChar b <;> simp_all
  simp [squeezeWS, hf]

theorem isSpaceChar_norm (c : Char) :
    isSpaceChar (if isSpaceChar c = true then ' ' else c) = isSpaceChar c := by
  by_cases hc : isSpaceChar c = true <;> simp [hc]
  decide

theorem squeezeWS_head (b : Char) (rest : Str) :
    (squeezeWS (b :: rest)).head? = some (if isSpaceChar b = true then ' ' else b) := by
  induction rest generalizing b with
  | nil => by_cases hb : isSpaceChar b = true <;> simp [squeezeWS, hb]
  | cons c r ih =>
    by_cases hbc : isSpaceChar b = true ∧ isSpaceChar c = true
    · rw [squeezeWS_cons_cons_sp hbc.1 hbc.2, ih c]
      simp [hbc.1, hbc.2]
    · rw [squeezeWS_cons_cons hbc]
      simp

theorem onlyPlain_squeezeWS (l : Str) : OnlyPlain (squeezeWS l) := by
  induction l with
  | nil => intro c hc; simp [squeezeWS] at hc
  | cons a t ih =>
    cases t with
    | nil =>
      intro c hc hsp
      by_cases ha : isSpaceChar a = true
      · simp [squeezeWS, ha] at hc; exact hc
      · simp [squeezeWS, ha] at hc
        exact absurd (hc ▸ hsp) (by simp [ha])
    | cons b r =>
      intro c hc hsp
      by_cases hab : isSpaceChar a = true ∧ isSpaceChar b = true
      · rw [squeezeWS_cons_cons_sp hab.1 hab.2] at hc
        exact ih c hc hsp
      · rw [squeezeWS_cons_cons hab] at hc
        rcases List.mem_cons.mp hc with h | h
        · by_cases ha : isSpaceChar a = true
          · simpa [ha] using h
          · simp [ha] at h
            exact absurd (h ▸ hsp) (by simp [ha])
        · exact ih c h hsp

theorem noDouble_squeezeWS (l : Str) : NoDouble (squeezeWS l) := by
  induction l with
  | nil => trivial
  | cons a t ih =>
    cases t with
    | nil =>
      by_cases ha : isSpaceChar a = true <;> simp [squeezeWS, ha] <;> trivial
    | cons b r =>
      by_cases hab : isSpaceChar a = true ∧ isSpaceChar b = true
      · rw [squeezeWS_cons_cons_sp hab.1 hab.2]
        exact ih
      · rw [squeezeWS_cons_cons hab]
        have hh := squeezeWS_head b r
        cases hsq : squeezeWS (b :: r) with
        | nil => trivial
        | cons x xs =>
          rw [hsq] at hh ih
          simp only [List.head?_cons, Option.some_inj] at hh
          refine ⟨?_, ih⟩
          rintro ⟨h1, h2⟩
          rw [isSpaceChar_norm a] at h1
          rw [hh, isSpaceChar_norm b] at h2
          exact hab ⟨h1, h2⟩

theorem squeezeWS_eq_self {l : Str} (h1 : OnlyPlain l) (h2 : NoDouble l) :
    squeezeWS l = l := by
  induction l with
  | nil => rfl
  | cons a t ih =>
    cases t with
    | nil =>
      by_cases ha : isSpaceChar a = true
      · have := h1 a (by simp) ha
        simp [squeezeWS, ha, this]
      · simp [squeezeWS, ha]
    | cons b r =>
      rw [squeezeWS_cons_cons h2.1]
      have hrec := ih (fun c hc hsp => h1 c (List.mem_cons_of_mem a hc) hsp) h2.2
      rw [hrec]
      by_cases ha : isSpaceChar a = true
      · have := h1 a (by simp) ha
        simp [ha, this]
      · simp [ha]

/-! ### `clean_text` produces normalized text, and fixes normalized text -/
theorem noDouble_stripChars {l : Str} (h : NoDouble l) : NoDouble (stripChars l) := by
  have h1 : NoDouble (l.dropWhile isSpaceChar) := noDouble_dropWhile _ h
  obtain ⟨t, ht⟩ := dropTrailing_eq_append (l.dropWhile isSpaceChar)
  rw [← ht] at h1
  exact noDouble_append_left h1

theorem onlyPlain_stripChars {l : Str} (h : OnlyPlain l) : OnlyPlain (stripChars l) :=
  onlyPlain_sub (fun _ hc => mem_of_mem_stripChars hc) h

theorem normalized_clean_text (text : Str) : Normalized (PdfConv.clean_text text) := by
  unfold PdfConv.clean_text
  by_cases h : text = []
  · simp [h]
    exact ⟨fun c hc => by simp at hc, trivial, fun c hc => by simp at hc,
      fun c hc => by simp at hc⟩
  · simp only [h, if_false]
    refine ⟨onlyPlain_stripChars (onlyPlain_squeezeWS _),
      noDouble_stripChars (noDouble_squeezeWS _),
      fun _ hc => stripChars_head_not_space hc,
      fun _ hc => stripChars_last_not_space hc⟩

theorem clean_text_eq_self {l : Str} (h : Normalized l) : PdfConv.clean_text l = l := by
  obtain ⟨h1, h2, h3, h4⟩ := h
  unfold PdfConv.clean_text
  by_cases hl : l = []
  · simp [hl]
  · simp only [hl, if_false]
    have hmap : l.map replNL = l := by
      refine map_self_of (fun a ha => ?_)
      unfold replNL
      by_cases hnl : a = '\n' || a = '\r'
      · exfalso
        have hsp : isSpaceChar a = true := by
          rcases (by simpa using hnl : a = '\n' ∨ a = '\r') with h | h <;>
            subst h <;> decide
        have := h1 a ha hsp
        subst this
        simp at hnl
      · simp [hnl]
    rw [hmap, squeezeWS_eq_self h1 h2, stripChars_eq_self h3 h4]

theorem normalized_of_clean_fixed {l : Str} (h : PdfConv.clean_text l = l) :
    Normalized l := h ▸ normalized_clean_text l

/-- Whitespace-skipping mode consumes exactly a `dropWhile`. -/
theorem splitSentSM_skip :
    ∀ (l acc : Str) (d : Char),
      splitSentSM true acc (d :: l) = splitSentSM false [] (l.dropWhile isSpaceChar) := by
  intro l
  induction l with
  | nil => intro acc d; rfl
  | cons e r ih =>
    intro acc d
    by_cases he : isSpaceChar e = true
    · rw [show splitSentSM true acc (d :: e :: r) = splitSentSM true [] (e :: r) by
        simp [splitSentSM, headIsSpace, he]]
      rw [ih [] e]
      simp [List.dropWhile_cons, he]
    · rw [show splitSentSM true acc (d :: e :: r) = splitSentSM false [] (e :: r) by
        simp [splitSentSM, headIsSpace, he]]
      simp [List.dropWhile_cons, he]

theorem splitSentAux_nil (acc : Str) : splitSentAux acc [] = [acc.reverse] := rfl

/-- The scanner satisfies the natural recurrence of the regex split: close
the fragment at a mark-plus-whitespace and drop the whole whitespace run. -/
theorem splitSentAux_cons (acc : Str) (c : Char) (rest : Str) :
    splitSentAux acc (c :: rest) =
      if isSentEnd c && headIsSpace rest then
        (acc.reverse ++ [c]) :: splitSentAux [] (rest.dropWhile isSpaceChar)
      else splitSentAux (c :: acc) rest := by
  unfold splitSentAux
  by_cases hcond : (isSentEnd c && headIsSpace rest) = true
  · rw [if_pos hcond]
    rw [show splitSentSM false acc (c :: rest) =
        (acc.reverse ++ [c]) :: splitSentSM true [] rest by
      simp [splitSentSM, hcond]]
    cases rest with
    | nil => simp [headIsSpace] at hcond
    | cons d r =>
      rw [splitSentSM_skip r [] d]
      have hd : isSpaceChar d = true := by
        rw [Bool.and_eq_true] at hcond
        simpa [headIsSpace] using hcond.2
      simp [List.dropWhile_cons, hd]
  · rw [if_neg hcond]
    simp [splitSentSM, hcond]

theorem joinWith_cons_cons (sep x y : Str) (t : List Str) :
    joinWith sep (x :: y :: t) = x ++ sep ++ joinWith sep (y :: t) := rfl

theorem splitSentAux_ne_nil : ∀ acc l, splitSentAux acc l ≠ [] := by
  have H : ∀ (n : Nat) (acc l : Str), l.length ≤ n → splitSentAux acc l ≠ [] := by
    intro n
    induction n with
    | zero =>
      intro acc l hlen
      rw [List.length_eq_zero.mp (Nat.le_zero.mp hlen), splitSentAux_nil]
      simp
    | succ n ihn =>
      intro acc l hlen
      cases l with
      | nil => rw [splitSentAux_nil]; simp
      | cons c rest =>
        rw [splitSentAux_cons]
        by_cases hcond : (isSentEnd c && headIsSpace rest) = true
        · rw [if_pos hcond]; simp
        · rw [if_neg hcond]
          exact ihn (c :: acc) rest (by simp at hlen; omega)
  exact fun acc l => H l.length acc l le_rfl

theorem sentEnd_not_space {c : Char} (h : isSentEnd c = true) :
    isSpaceChar c = false := by
  rcases (by simpa [isSentEnd] using h : (c = '.' ∨ c = '!') ∨ c = '?') with (h | h) | h <;>
    subst h <;> decide

theorem getLast?_cons_of_ne_nil {c : Char} {l : Str} (h : l ≠ []) :
    (c :: l).getLast? = l.getLast? := by
  cases l with
  | nil => exact absurd rfl h
  | cons b t => exact List.getLast?_cons_cons

theorem head?_append_left {xs ys : List Char} (h : xs ≠ []) :
    (xs ++ ys).head? = xs.head? := by
  cases xs with
  | nil => exact absurd rfl h
  | cons a t => rfl

/-- Splitting a normalized tail: the separator run after a sentence-final
mark is a single `' '` followed by a non-space character. -/
theorem normalized_sep_shape {c : Char} {rest : Str}
    (h1 : OnlyPlain (c :: rest)) (h2 : NoDouble (c :: rest))
    (h3 : LastNotSp (c :: rest)) (hd : headIsSpace rest = true) :
    ∃ r2, rest = ' ' :: r2 ∧ r2 ≠ [] ∧ HeadNotSp r2 ∧
      rest.dropWhile isSpaceChar = r2 ∧ OnlyPlain r2 ∧ NoDouble r2 ∧ LastNotSp r2 := by
  cases rest with
  | nil => simp [headIsSpace] at hd
  | cons d r2 =>
    simp only [headIsSpace] at hd
    have hdsp : d = ' ' := h1 d (by simp) hd
    subst hdsp
    cases r2 with
    | nil =>
      exfalso
      have : (c :: [' ']).getLast? = some ' ' := by simp
      have := h3 ' ' this
      simp [isSpaceChar] at this
    | cons e r3 =>
      have hnd : NoDouble (' ' :: e :: r3) := h2.2
      have he : isSpaceChar e = false := by
        by_cases hesp : isSpaceChar e = true
        · exact absurd ⟨hd, hesp⟩ hnd.1
        · simpa using hesp
      refine ⟨e :: r3, rfl, by simp, ?_, ?_, ?_, hnd.2, ?_⟩
      · intro x hx
        simp only [List.head?_cons, Option.some_inj] at hx
        exact hx ▸ he
      · simp [List.dropWhile_cons, hd, he]
      · exact fun x hx hsp =>
          h1 x (List.mem_cons_of_mem _ (List.mem_cons_of_mem _ hx)) hsp
      · intro x hx
        apply h3 x
        rw [getLast?_cons_of_ne_nil (l := ' ' :: e :: r3) (by simp),
          getLast?_cons_of_ne_nil (l := e :: r3) (by simp)]
        exact hx

/-- Joining the regex fragments of a normalized string with single spaces
reconstructs the string after the scanned prefix. -/
theorem joinWith_splitSentAux :
    ∀ acc l, OnlyPlain l → NoDouble l → LastNotSp l →
      joinWith [' '] (splitSentAux acc l) = acc.reverse ++ l := by
  have H : ∀ (n : Nat) (acc l : Str), l.length ≤ n →
      OnlyPlain l → NoDouble l → LastNotSp l →
      joinWith [' '] (splitSentAux acc l) = acc.reverse ++ l := by
    intro n
    induction n with
    | zero =>
      intro acc l hlen _ _ _
      rw [List.length_eq_zero.mp (Nat.le_zero.mp hlen), splitSentAux_nil]
      simp [joinWith]
    | succ n ihn =>
      intro acc l hlen h1 h2 h3
      cases l with
      | nil => rw [splitSentAux_nil]; simp [joinWith]
      | cons c rest =>
        simp only [List.length_cons] at hlen
        by_cases h : (isSentEnd c && headIsSpace rest) = true
        · have hcond := h
          rw [Bool.and_eq_true] at hcond
          obtain ⟨r2, hrest, hr2ne, hr2hd, hdw, hop, hnd, hls⟩ :=
            normalized_sep_shape h1 h2 h3 hcond.2
          have hlen2 : (rest.dropWhile isSpaceChar).length ≤ n := by
            have := (List.dropWhile_sublist (l := rest) isSpaceChar).length_le
            omega
          have hih := ihn [] (rest.dropWhile isSpaceChar) hlen2
            (by rw [hdw]; exact hop) (by rw [hdw]; exact hnd)
            (by rw [hdw]; exact hls)
          rw [hdw] at hih
          rw [splitSentAux_cons, if_pos h, hdw]
          cases hsp : splitSentAux [] r2 with
          | nil => exact absurd hsp (splitSentAux_ne_nil _ _)
          | cons x xs =>
            rw [joinWith_cons_cons, ← hsp, hih, hrest]
            simp
        · have hih := ihn (c :: acc) rest (by omega)
            (fun x hx hsp => h1 x (List.mem_cons_of_mem c hx) hsp)
            (noDouble_tail h2)
            (by
              intro x hx
              apply h3 x
              cases rest with
              | nil => simp at hx
              | cons b t => rw [getLast?_cons_of_ne_nil (by simp)]; exact hx)
          rw [splitSentAux_cons, if_neg h, hih]
          simp
  exact fun acc l => H l.length acc l le_rfl

/-- Every fragment produced on a normalized string is nonempty and
strip-fixed. -/
theorem splitSentAux_frag_nil (acc : Str) (hok : StartOK acc []) :
    ∀ s ∈ splitSentAux acc [], s ≠ [] ∧ stripChars s = s := by
  intro s hs
  rw [splitSentAux_nil] at hs
  simp only [List.mem_singleton] at hs
  subst hs
  have hne : acc ≠ [] := by
    intro hnil
    exact absurd rfl (hok.1 hnil).1
  refine ⟨by simpa using hne, stripChars_eq_self ?_ ?_⟩
  · intro c hc
    rw [List.head?_reverse] at hc
    exact hok.2.1 hne c hc
  · intro c hc
    rw [List.getLast?_reverse] at hc
    exact hok.2.2 rfl hne c hc

theorem splitSentAux_frags :
    ∀ acc l, OnlyPlain l → NoDouble l → LastNotSp l → StartOK acc l →
      ∀ s ∈ splitSentAux acc l, s ≠ [] ∧ stripChars s = s := by
  have H : ∀ (n : Nat) (acc l : Str), l.length ≤ n →
      OnlyPlain l → NoDouble l → LastNotSp l → StartOK acc l →
      ∀ s ∈ splitSentAux acc l, s ≠ [] ∧ stripChars s = s := by
    intro n
    induction n with
    | zero =>
      intro acc l hlen _ _ _ hok
      rw [List.length_eq_zero.mp (Nat.le_zero.mp hlen)] at hok ⊢
      exact splitSentAux_frag_nil acc hok
    | succ n ihn =>
      intro acc l hlen h1 h2 h3 hok
      cases l with
      | nil => exact splitSentAux_frag_nil acc hok
      | cons c rest =>
        simp only [List.length_cons] at hlen
        intro s hs
        by_cases h : (isSentEnd c && headIsSpace rest) = true
        · have hcond := h
          rw [Bool.and_eq_true] at hcond
          obtain ⟨r2, hrest, hr2ne, hr2hd, hdw, hop, hnd, hls⟩ :=
            normalized_sep_shape h1 h2 h3 hcond.2
          rw [splitSentAux_cons, if_pos h] at hs
          rcases List.mem_cons.mp hs with hfrag | hrec
          · subst hfrag
            have hhead : ∀ x, (acc.reverse ++ [c]).head? = some x →
                isSpaceChar x = false := by
              intro x hx
              cases hacc : acc.reverse with
              | nil =>
                rw [hacc] at hx
                simp only [List.nil_append, List.head?_cons, Option.some_inj] at hx
                exact hx ▸ sentEnd_not_space hcond.1
              | cons y ys =>
                rw [head?_append_left (by simp [hacc])] at hx
                rw [hacc] at hx
                simp only [List.head?_cons, Option.some_inj] at hx
                subst hx
                apply hok.2.1 (by simpa using (by simp [hacc] : acc.reverse ≠ []))
                rw [← List.head?_reverse, hacc]
                rfl
            have hlast : ∀ x, (acc.reverse ++ [c]).getLast? = some x →
                isSpaceChar x = false := by
              intro x hx
              rw [List.getLast?_concat] at hx
              simp only [Option.some_inj] at hx
              exact hx ▸ sentEnd_not_space hcond.1
            exact ⟨by simp, stripChars_eq_self hhead hlast⟩
          · have hlen2 : (rest.dropWhile isSpaceChar).length ≤ n := by
              have := (List.dropWhile_sublist (l := rest) isSpaceChar).length_le
              omega
            refine ihn [] (rest.dropWhile isSpaceChar) hlen2
              (by rw [hdw]; exact hop) (by rw [hdw]; exact hnd)
              (by rw [hdw]; exact hls) ?_ s hrec
            refine ⟨fun _ => by rw [hdw]; exact ⟨hr2ne, hr2hd⟩,
              fun habs => absurd rfl habs, fun hnil habs => absurd rfl habs⟩
        · rw [splitSentAux_cons, if_neg h] at hs
          refine ihn (c :: acc) rest (by omega)
            (fun x hx hsp => h1 x (List.mem_cons_of_mem c hx) hsp)
            (noDouble_tail h2)
            (by
              intro x hx
              apply h3 x
              cases rest with
              | nil => simp at hx
              | cons b t => rw [getLast?_cons_of_ne_nil (by simp)]; exact hx)
            ?_ s hs
          refine ⟨fun habs => absurd habs (by simp), ?_, ?_⟩
          · intro _ x hx
            cases hacc : acc with
            | nil =>
              subst hacc
              simp only [List.getLast?_singleton, Option.some_inj] at hx
              subst hx
              exact (hok.1 rfl).2 _ rfl
            | cons y ys =>
              subst hacc
              rw [getLast?_cons_of_ne_nil (by simp)] at hx
              exact hok.2.1 (by simp) x hx
          · intro hnil _ x hx
            simp only [List.head?_cons, Option.some_inj] at hx
            subst hx
            subst hnil
            apply h3 _
            simp
  exact fun acc l => H l.length acc l le_rfl

/-- Elements of `_split_into_sentences` are always nonempty and strip-fixed. -/
theorem split_into_sentences_elems {text : Str} :
    ∀ s ∈ _split_into_sentences text, s ≠ [] ∧ stripChars s = s := by
  intro s hs
  unfold _split_into_sentences at hs
  rw [List.mem_filter] at hs
  obtain ⟨hmem, hne⟩ := hs
  rw [List.mem_map] at hmem
  obtain ⟨s0, _, hs0⟩ := hmem
  refine ⟨by simpa using hne, ?_⟩
  rw [← hs0]
  exact stripChars_idem s0

/-- On a nonempty normalized string the post-processing of the regex split
(strip each fragment, drop empties) is the identity, and joining the
sentences with single spaces reconstructs the string. -/
theorem split_into_sentences_normalized {text : Str} (h : Normalized text)
    (hne : text ≠ []) :
    _split_into_sentences text = splitSentAux [] text ∧
    joinWith [' '] (_split_into_sentences text) = text := by
  obtain ⟨h1, h2, h3, h4⟩ := h
  have hok : StartOK [] text :=
    ⟨fun _ => ⟨hne, h3⟩, fun habs => absurd rfl habs, fun _ habs => absurd rfl habs⟩
  have hfrags := splitSentAux_frags [] text h1 h2 h4 hok
  have heq : _split_into_sentences text = splitSentAux [] text := by
    unfold _split_into_sentences
    rw [map_self_of (fun s hsmem => (hfrags s hsmem).2)]
    rw [List.filter_eq_self.mpr (fun s hsmem => by
      simpa using (hfrags s hsmem).1)]
  exact ⟨heq, by rw [heq]; simpa using joinWith_splitSentAux [] text h1 h2 h4⟩

/-! ### `TextChunker.chunk_text` (text_chunker.py lines 15-51)
`token_count` (lines 53-55) delegates to tiktoken: it is modelled by an
opaque parameter `tc : Str → Nat`.  `token_limit` and `overlap_size` are
Python ints (defaults 500 and 50); `overlap_size` is never read. -/
theorem getLast?_append_right {xs ys : List Char} (h : ys ≠ []) :
    (xs ++ ys).getLast? = ys.getLast? := by
  rw [← List.head?_reverse, ← List.head?_reverse, List.reverse_append]
  exact head?_append_left (by simpa using h)

/-- Appending a space-joined nonempty strip-fixed piece keeps a string
strip-fixed. -/
theorem stripChars_append_sp {a b : Str} (ha : a ≠ []) (hfa : stripChars a = a)
    (hb : b ≠ []) (hfb : stripChars b = b) :
    stripChars (a ++ ' ' :: b) = a ++ ' ' :: b := by
  apply stripChars_eq_self
  · intro c hc
    rw [head?_append_left ha] at hc
    exact headNotSp_of_strip_fixed hfa c hc
  · intro c hc
    rw [getLast?_append_right (by simp)] at hc
    rw [getLast?_cons_of_ne_nil hb] at hc
    exact lastNotSp_of_strip_fixed hfb c hc

theorem chunkLoop_ne_nil (tc : Str → Nat) (lim : Int) :
    ∀ (ss : List Str) (cur : Str) (curTok : Nat), cur ≠ [] →
      chunkLoop tc lim ss cur curTok ≠ [] := by
  intro ss
  induction ss with
  | nil => intro cur curTok h; simp [chunkLoop, h]
  | cons s rest ih =>
    intro cur curTok h
    rw [chunkLoop]
    by_cases h1 : stripChars s = []
    · rw [if_pos h1]; exact ih cur curTok h
    · rw [if_neg h1]
      by_cases h2 : (curTok : Int) + (tc (stripChars s) : Int) > lim
      · rw [if_pos h2, if_neg h]; simp
      · rw [if_neg h2, if_neg h]
        exact ih _ _ (by simp)

theorem chunkLoop_join (tc : Str → Nat) (lim : Int) :
    ∀ (ss : List Str) (cur : Str) (curTok : Nat),
      (∀ s ∈ ss, s ≠ [] ∧ stripChars s = s) →
      cur ≠ [] → stripChars cur = cur →
      joinWith [' '] (chunkLoop tc lim ss cur curTok) =
        joinWith [' '] (cur :: ss) := by
  intro ss
  induction ss with
  | nil =>
    intro cur curTok _ h hfix
    simp [chunkLoop, h, joinWith, hfix]
  | cons s rest ih =>
    intro cur curTok hss hcur hfix
    obtain ⟨hsne, hsfix⟩ := hss s (by simp)
    have hrest : ∀ x ∈ rest, x ≠ [] ∧ stripChars x = x :=
      fun x hx => hss x (by simp [hx])
    rw [chunkLoop, hsfix, if_neg hsne]
    by_cases hflush : (curTok : Int) + (tc s : Int) > lim
    · rw [if_pos hflush, if_neg hcur]
      cases hch : chunkLoop tc lim rest s (tc s) with
      | nil => exact absurd hch (chunkLoop_ne_nil tc lim rest s (tc s) hsne)
      | cons x xs =>
        rw [joinWith_cons_cons, ← hch, ih s (tc s) hrest hsne hsfix, hfix]
        rfl
    · rw [if_neg hflush, if_neg hcur]
      rw [ih (cur ++ ' ' :: s) (curTok + tc s) hrest (by simp)
        (stripChars_append_sp hcur hfix hsne hsfix)]
      cases rest with
      | nil => simp [joinWith]
      | cons y ys => simp [joinWith_cons_cons]

theorem chunkLoop_join_nil (tc : Str → Nat) (lim : Int) (ss : List Str)
    (curTok : Nat) (hss : ∀ s ∈ ss, s ≠ [] ∧ stripChars s = s) :
    joinWith [' '] (chunkLoop tc lim ss [] curTok) = joinWith [' '] ss := by
  cases ss with
  | nil => simp [chunkLoop, joinWith]
  | cons s rest =>
    obtain ⟨hsne, hsfix⟩ := hss s (by simp)
    have hrest : ∀ x ∈ rest, x ≠ [] ∧ stripChars x = x :=
      fun x hx => hss x (by simp [hx])
    rw [chunkLoop, hsfix, if_neg hsne]
    by_cases hflush : ((curTok : Int) + (tc s : Int) > lim)
    · rw [if_pos hflush, if_pos rfl]
      exact chunkLoop_join tc lim rest s (tc s) hrest hsne hsfix
    · rw [if_neg hflush, if_pos rfl]
      exact chunkLoop_join tc lim rest s (curTok + tc s) hrest hsne hsfix

/-- Token-budget invariant of the accumulator loop: every emitted chunk
either is within the limit (by the per-sentence token sum) or is one single
oversized sentence of `S`. -/
theorem chunkLoop_bound (tc : Str → Nat) (lim : Int) (S : List Str)
    (hsub : ∀ a b : Str, tc (a ++ ' ' :: b) ≤ tc a + tc b) :
    ∀ (ss : List Str) (cur : Str) (curTok : Nat),
      (∀ s ∈ ss, s ∈ S ∧ stripChars s = s) →
      (cur = [] ∨ (stripChars cur = cur ∧
        ((tc cur ≤ curTok ∧ (curTok : Int) ≤ lim) ∨
         (lim < (curTok : Int) ∧ lim < (tc cur : Int) ∧ cur ∈ S)))) →
      ∀ c ∈ chunkLoop tc lim ss cur curTok,
        (tc c : Int) ≤ lim ∨ ((lim : Int) < tc c ∧ c ∈ S) := by
  intro ss
  induction ss with
  | nil =>
    intro cur curTok hss hcur c hc
    rw [chunkLoop] at hc
    rcases hcur with hnil | ⟨hfix, hca | hcb⟩
    · simp [hnil] at hc
    · by_cases hnil : cur = []
      · simp [hnil] at hc
      · rw [if_neg hnil] at hc
        simp only [List.mem_singleton] at hc
        subst hc
        rw [hfix]
        left
        have h1 := hca.1
        have h2 := hca.2
        omega
    · by_cases hnil : cur = []
      · simp [hnil] at hc
      · rw [if_neg hnil] at hc
        simp only [List.mem_singleton] at hc
        subst hc
        rw [hfix]
        exact Or.inr ⟨hcb.2.1, hcb.2.2⟩
  | cons s rest ih =>
    intro cur curTok hss hcur c hc
    obtain ⟨hsS, hsfix⟩ := hss s (by simp)
    have hrest : ∀ x ∈ rest, x ∈ S ∧ stripChars x = x :=
      fun x hx => hss x (by simp [hx])
    rw [chunkLoop, hsfix] at hc
    by_cases hempty : s = []
    · rw [if_pos hempty] at hc
      exact ih cur curTok hrest hcur c hc
    · rw [if_neg hempty] at hc
      by_cases hflush : ((curTok : Int) + (tc s : Int) > lim)
      · rw [if_pos hflush] at hc
        have hnew : s = [] ∨ (stripChars s = s ∧
            ((tc s ≤ tc s ∧ ((tc s : Nat) : Int) ≤ lim) ∨
             (lim < ((tc s : Nat) : Int) ∧ lim < (tc s : Int) ∧ s ∈ S))) := by
          right
          refine ⟨hsfix, ?_⟩
          by_cases hbig : (tc s : Int) ≤ lim
          · exact Or.inl ⟨le_refl _, hbig⟩
          · exact Or.inr ⟨by omega, by omega, hsS⟩
        by_cases hnil : cur = []
        · rw [if_pos hnil] at hc
          exact ih s (tc s) hrest hnew c hc
        · rw [if_neg hnil] at hc
          rcases List.mem_cons.mp hc with hhd | htl
          · subst hhd
            rcases hcur with hcnil | ⟨hfix, hca | hcb⟩
            · exact absurd hcnil hnil
            · rw [hfix]
              left
              have h1 := hca.1
              have h2 := hca.2
              omega
            · rw [hfix]
              exact Or.inr ⟨hcb.2.1, hcb.2.2⟩
          · exact ih s (tc s) hrest hnew c htl
      · rw [if_neg hflush] at hc
        by_cases hnil : cur = []
        · rw [if_pos hnil] at hc
          refine ih s (curTok + tc s) hrest ?_ c hc
          right
          refine ⟨hsfix, Or.inl ⟨by omega, by omega⟩⟩
        · rw [if_neg hnil] at hc
          rcases hcur with hcnil | ⟨hfix, hca | hcb⟩
          · exact absurd hcnil hnil
          · refine ih (cur ++ ' ' :: s) (curTok + tc s) hrest ?_ c hc
            right
            refine ⟨stripChars_append_sp hnil hfix hempty hsfix, Or.inl ⟨?_, by omega⟩⟩
            calc tc (cur ++ ' ' :: s) ≤ tc cur + tc s := hsub cur s
              _ ≤ curTok + tc s := by have := hca.1; omega
          · exfalso
            have h1 := hcb.1
            omega

/-- Claim C1: in sentence-respecting mode, every chunk produced by
`chunk_text` has token count at most `token_limit`, except a chunk that is
one single sentence whose own token count exceeds the limit; such a
sentence is emitted alone, never dropped and never split.  The token
counter is opaque; the code enforces the bound on the running sum of
per-sentence token counts, so the bound on the joined chunk holds for
every tokenizer that is subadditive across a space join. -/
theorem chunk_text_token_bound (tc : Str → Nat) (text : Str)
    (token_limit overlap_size : Int) (hlim : 0 < token_limit)
    (hsub : ∀ a b : Str, tc (a ++ ' ' :: b) ≤ tc a + tc b) :
    ∀ c ∈ chunk_text tc text token_limit overlap_size,
      (tc c : Int) ≤ token_limit ∨
      (token_limit < (tc c : Int) ∧ c ∈ _split_into_sentences text) := by
  intro c hc
  unfold chunk_text at hc
  by_cases hne : text = []
  · simp [hne] at hc
  · rw [if_neg hne] at hc
    exact chunkLoop_bound tc token_limit (_split_into_sentences text) hsub
      (_split_into_sentences text) [] 0
      (fun s hs => ⟨hs, (split_into_sentences_elems s hs).2⟩)
      (Or.inl rfl) c hc

/-- Witness for C1 at a concrete input: tokenizer = number of `x`
characters, `token_limit = 1`, text `"x. xx."`; the chunk `"xx."` is an
oversized single sentence emitted alone. -/
theorem chunk_text_token_bound_witness :
    (0 : Int) < 1 ∧
    (((str "xx.").count 'x' : Int) ≤ 1 ∨
      (1 < ((str "xx.").count 'x' : Int) ∧
        str "xx." ∈ _split_into_sentences (str "x. xx."))) :=
  ⟨by decide,
    chunk_text_token_bound (fun s => s.count 'x') (str "x. xx.") 1 50
      (by decide)
      (fun a b => by
        simp [List.count_append, List.count_cons])
      (str "xx.") (by decide)⟩

/-- Claim C2: for whitespace-normalized input (`clean_text text = text`),
joining all chunks of `chunk_text` in order with single spaces
reconstructs the input exactly: no sentence is lost or duplicated. -/
theorem chunk_text_concat (tc : Str → Nat) (token_limit overlap_size : Int)
    (text : Str) (hn : PdfConv.clean_text text = text) :
    joinWith [' '] (chunk_text tc text token_limit overlap_size) = text := by
  by_cases hne : text = []
  · rw [hne]; rfl
  · have hnorm : Normalized text := normalized_of_clean_fixed hn
    obtain ⟨heq, hjoin⟩ := split_into_sentences_normalized hnorm hne
    unfold chunk_text
    rw [if_neg hne]
    rw [chunkLoop_join_nil tc token_limit _ 0
      (fun s hs => split_into_sentences_elems s hs)]
    exact hjoin

/-- Witness for C2 at a concrete input. -/
theorem chunk_text_concat_witness :
    PdfConv.clean_text (str "a. b.") = str "a. b." ∧
    joinWith [' ']
      (chunk_text (fun s => s.length) (str "a. b.") 3 50) = str "a. b." :=
  ⟨by decide,
    chunk_text_concat (fun s => s.length) 3 50 (str "a. b.") (by decide)⟩

/-- Claim C8: `chunk_text` never reads `overlap_size`: for every text,
token limit and any two overlap sizes the chunk sequences coincide. -/
theorem chunk_text_overlap_independent (tc : Str → Nat) (text : Str)
    (token_limit o1 o2 : Int) :
    chunk_text tc text token_limit o1 = chunk_text tc text token_limit o2 := rfl

theorem wordsAux_length_le : ∀ (l acc : Str), (wordsAux acc l).length ≤ l.length + 1 := by
  intro l
  induction l with
  | nil =>
    intro acc
    by_cases h : acc = [] <;> simp [wordsAux, h]
  | cons c rest ih =>
    intro acc
    by_cases hc : isSpaceChar c = true
    · by_cases h : acc = []
      · rw [show wordsAux acc (c :: rest) = wordsAux [] rest by simp [wordsAux, hc, h]]
        have := ih []
        simp only [List.length_cons]
        omega
      · rw [show wordsAux acc (c :: rest) = acc.reverse :: wordsAux [] rest by
          simp [wordsAux, hc, h]]
        have := ih []
        simp only [List.length_cons]
        simp only [List.length_cons] at this ⊢
        omega
    · rw [show wordsAux acc (c :: rest) = wordsAux (c :: acc) rest by
        simp [wordsAux, hc]]
      have := ih (c :: acc)
      simp only [List.length_cons]
      omega

theorem wmAux_skip : ∀ (rest : List Str) (ln : Str),
    wmAux true (ln :: rest) = wmAux false (rest.dropWhile shortLine) := by
  intro rest
  induction rest with
  | nil => intro ln; rfl
  | cons l2 r ih =>
    intro ln
    by_cases h : shortLine l2 = true
    · rw [show wmAux true (ln :: l2 :: r) = wmAux true (l2 :: r) by
        simp [wmAux, headShort, h]]
      rw [ih l2]
      simp [List.dropWhile_cons, h]
    · rw [show wmAux true (ln :: l2 :: r) = wmAux false (l2 :: r) by
        simp [wmAux, headShort, h]]
      simp [List.dropWhile_cons, h]

/-- The recurrence of the watermark loop in the shape of the Python code:
margin-mark lines are dropped, a front-aligned run of at least 8 short
lines is dropped as a block, and anything else is kept. -/
theorem watermarkPass_cons (ln : Str) (rest : List Str) :
    watermarkPass (ln :: rest) =
      if looks_like_margin_mark ln then watermarkPass rest
      else if shortLine ln && decide (8 ≤ ((ln :: rest).takeWhile shortLine).length) then
        watermarkPass (rest.dropWhile shortLine)
      else ln :: watermarkPass rest := by
  unfold watermarkPass
  by_cases h1 : looks_like_margin_mark ln = true
  · simp [wmAux, h1]
  · by_cases h2 :
      (shortLine ln && decide (8 ≤ ((ln :: rest).takeWhile shortLine).length)) = true
    · rw [if_neg h1, if_pos h2]
      rw [show wmAux false (ln :: rest) = wmAux true rest by simp [wmAux, h1, h2]]
      cases rest with
      | nil => rfl
      | cons l2 r =>
        rw [wmAux_skip r l2]
        have hparts := h2
        rw [Bool.and_eq_true] at hparts
        have hln : shortLine ln = true := hparts.1
        have hlen : 8 ≤ ((ln :: l2 :: r).takeWhile shortLine).length := by
          simpa using hparts.2
        have hl2 : shortLine l2 = true := by
          by_cases hs : shortLine l2 = true
          · exact hs
          · exfalso
            rw [List.takeWhile_cons, if_pos hln, List.takeWhile_cons, if_neg hs] at hlen
            simp at hlen
        rw [List.dropWhile_cons, if_pos hl2]
    · rw [if_neg h1, if_neg h2]
      simp [wmAux, h1, h2]

/-- A line whose stripped form has at most 2 characters has at most 3
whitespace-separated tokens and hence is never a margin mark. -/
theorem short_not_margin {ln : Str} (h : shortLine ln = true) :
    looks_like_margin_mark ln = false := by
  unfold shortLine at h
  rw [Bool.and_eq_true] at h
  have hlen : (stripChars ln).length ≤ 2 := by simpa using h.1
  have htok := wordsAux_length_le (stripChars ln) []
  unfold looks_like_margin_mark wordsWS
  rw [if_pos (by omega)]

theorem takeWhile_eq_nil_of_head {α : Type} {p : α → Bool} {l : List α}
    (h : ∀ c, l.head? = some c → p c = false) : l.takeWhile p = [] := by
  cases l with
  | nil => rfl
  | cons a t => simp [List.takeWhile_cons, h a rfl]

/-- A front-aligned run of at least 8 short lines, immediately followed by
a non-short line (or the end of the document), is removed as a whole block. -/
theorem wm_removal : ∀ (block rest : List Str), 8 ≤ block.length →
    (∀ ln ∈ block, shortLine ln = true) →
    (∀ ln, rest.head? = some ln → shortLine ln = false) →
    watermarkPass (block ++ rest) = watermarkPass rest := by
  intro block rest h8 hshort hrest
  cases block with
  | nil => simp at h8
  | cons ln bt =>
    have hln : shortLine ln = true := hshort ln (by simp)
    have hbt : ∀ x ∈ bt, shortLine x = true := fun x hx => hshort x (by simp [hx])
    rw [List.cons_append, watermarkPass_cons]
    rw [if_neg (by simp [short_not_margin hln])]
    have htake : ((ln :: (bt ++ rest)).takeWhile shortLine) = ln :: bt := by
      rw [List.takeWhile_cons, if_pos hln, List.takeWhile_append_of_pos hbt,
        takeWhile_eq_nil_of_head hrest, List.append_nil]
    have hcond : (shortLine ln &&
        decide (8 ≤ ((ln :: (bt ++ rest)).takeWhile shortLine).length)) = true := by
      rw [htake, hln]
      simpa using h8
    rw [if_pos hcond]
    rw [List.dropWhile_append_of_pos hbt, dropWhile_eq_self_of_head hrest]

/-- A front-aligned run of fewer than 8 short lines, immediately followed
by a non-short line (or the end of the document), is kept in full. -/
theorem wm_keep : ∀ (block rest : List Str), block.length < 8 →
    (∀ ln ∈ block, shortLine ln = true) →
    (∀ ln, rest.head? = some ln → shortLine ln = false) →
    watermarkPass (block ++ rest) = block ++ watermarkPass rest := by
  intro block
  induction block with
  | nil => intro rest _ _ _; simp
  | cons ln bt ih =>
    intro rest hlt hshort hrest
    have hln : shortLine ln = true := hshort ln (by simp)
    have hbt : ∀ x ∈ bt, shortLine x = true := fun x hx => hshort x (by simp [hx])
    rw [List.cons_append, watermarkPass_cons]
    rw [if_neg (by simp [short_not_margin hln])]
    have htake : ((ln :: (bt ++ rest)).takeWhile shortLine) = ln :: bt := by
      rw [List.takeWhile_cons, if_pos hln, List.takeWhile_append_of_pos hbt,
        takeWhile_eq_nil_of_head hrest, List.append_nil]
    have hcond : (shortLine ln &&
        decide (8 ≤ ((ln :: (bt ++ rest)).takeWhile shortLine).length)) = false := by
      rw [htake]
      simp only [hln, Bool.true_and, decide_eq_false_iff_not]
      simp only [List.length_cons] at hlt ⊢
      omega
    rw [if_neg (by simp [hcond])]
    rw [ih rest (by simp only [List.length_cons] at hlt; omega) hbt hrest]
    simp

/-- Claim C4 counterexample: the full text cleaner (watermark stripping
followed by whitespace normalization — the test driver `clean_text`) is
not idempotent.  On `"a b c d\ne f g h"` the first pass keeps both
4-token lines and flattens them into one 8-token line of single
characters, which the second pass removes as a margin mark. -/
theorem clean_text_full_not_idempotent :
    TestFile.clean_text (TestFile.clean_text (str "a b c d\ne f g h")) ≠
      TestFile.clean_text (str "a b c d\ne f g h") := by decide

/-- Claim C4 (amended): the whitespace-normalization cleaner
`PdfConverter.clean_text` is idempotent; the watermark-stripping pass of
the full cleaner breaks idempotence (see the counterexample). -/
theorem clean_text_idempotent (x : Str) :
    PdfConv.clean_text (PdfConv.clean_text x) = PdfConv.clean_text x :=
  clean_text_eq_self (normalized_clean_text x)

/-- Claim C9: during text cleaning, a maximal run of at least 8
consecutive non-empty lines of at most 2 characters after trimming is
removed as a whole block by the watermark line pass, while such a run of
exactly 7 lines is kept in full. -/
theorem watermark_block_behavior :
    (∀ (block rest : List Str), 8 ≤ block.length →
      (∀ ln ∈ block, shortLine ln = true) →
      (∀ ln, rest.head? = some ln → shortLine ln = false) →
      watermarkPass (block ++ rest) = watermarkPass rest) ∧
    (∀ (block rest : List Str), block.length = 7 →
      (∀ ln ∈ block, shortLine ln = true) →
      (∀ ln, rest.head? = some ln → shortLine ln = false) →
      watermarkPass (block ++ rest) = block ++ watermarkPass rest) :=
  ⟨fun block rest h8 => wm_removal block rest h8,
   fun block rest h7 => wm_keep block rest (by omega)⟩

/-- Witness for C9: 8 copies of `"ab"` before a long line are removed, 7
copies are kept. -/
theorem watermark_block_behavior_witness :
    watermarkPass (List.replicate 8 (str "ab") ++ [str "hello world line"]) =
      watermarkPass [str "hello world line"] ∧
    watermarkPass (List.replicate 7 (str "ab") ++ [str "hello world line"]) =
      List.replicate 7 (str "ab") ++ watermarkPass [str "hello world line"] :=
  ⟨watermark_block_behavior.1 (List.replicate 8 (str "ab"))
      [str "hello world line"] (by decide) (by decide) (by decide),
   watermark_block_behavior.2 (List.replicate 7 (str "ab"))
      [str "hello world line"] (by decide) (by decide) (by decide)⟩

/-- Claim C5 counterexample: in fallback mode the first line of `sampleC5`
does not satisfy the boilerplate condition, yet it is dropped (because the
second line matches, the whole two-line prefix is removed).  So "a line is
dropped exactly when it matches" is false. -/
theorem remove_simple_drops_nonmatching_line :
    _remove_headers_footers_simple sampleC5 =
      str "Middle content line that is reasonably long.\nAnother interior content line that is long too.\nThe final line is also long enough to survive." ∧
    isHeaderFooterLine (str "This first line is long enough to stay.") = false := by
  decide

/-- Claim C5 (amended): in fallback mode (more than 4 lines), only the
first two and last two lines are inspected; the output drops a prefix and
a suffix of at most two lines each, where the prefix length is 2 if the
second line matches the boilerplate condition, else 1 if the first line
matches, else 0 (symmetrically for the suffix, inspecting the
second-to-last then the last line); all remaining lines are returned
unchanged and in order. -/
theorem remove_simple_structure (text : Str)
    (h : 4 < (splitNl text).length) :
    headerCount (splitNl text) =
      (if isHeaderFooterLine ((splitNl text).getD 1 []) then 2
       else if isHeaderFooterLine ((splitNl text).getD 0 []) then 1 else 0) ∧
    footerCount (splitNl text) =
      (if isHeaderFooterLine ((splitNl text).getD ((splitNl text).length - 2) []) then 2
       else if isHeaderFooterLine ((splitNl text).getD ((splitNl text).length - 1) []) then 1
       else 0) ∧
    _remove_headers_footers_simple text =
      joinWith ['\n'] (((splitNl text).drop (headerCount (splitNl text))).take
        ((splitNl text).length - headerCount (splitNl text) -
          footerCount (splitNl text))) := by
  have hL2 : 2 ≤ (splitNl text).length := by omega
  have hmin : min 2 (splitNl text).length = 2 := Nat.min_eq_left hL2
  refine ⟨?_, ?_, ?_⟩
  · unfold headerCount
    rw [hmin]
    show List.foldl _ 0 [0, 1] = _
    simp only [List.foldl_cons, List.foldl_nil]
  · unfold footerCount
    rw [hmin]
    show List.foldl _ 0 [0, 1] = _
    simp only [List.foldl_cons, List.foldl_nil]
    have e1 : (splitNl text).length - 1 - 0 = (splitNl text).length - 1 := by omega
    have e2 : (splitNl text).length - 1 - 1 = (splitNl text).length - 2 := by omega
    rw [e1, e2]
  · unfold _remove_headers_footers_simple
    rw [if_neg (by omega)]
    have hdrop : ∀ (L : List Str) (a : Nat),
        (if 0 < a then L.drop a else L) = L.drop a := by
      intro L a
      by_cases h0 : 0 < a
      · simp [h0]
      · have ha : a = 0 := by omega
        simp [ha]
    have htake : ∀ (L : List Str) (a : Nat),
        (if 0 < a then L.take (L.length - a) else L) = L.take (L.length - a) := by
      intro L a
      by_cases h0 : 0 < a
      · simp [h0]
      · have ha : a = 0 := by omega
        simp [ha]
    simp only [gt_iff_lt]
    rw [hdrop, htake, List.length_drop]

/-- Witness for C5 at the concrete 5-line document. -/
theorem remove_simple_structure_witness :
    4 < (splitNl sampleC5).length ∧
    (headerCount (splitNl sampleC5) =
      (if isHeaderFooterLine ((splitNl sampleC5).getD 1 []) then 2
       else if isHeaderFooterLine ((splitNl sampleC5).getD 0 []) then 1 else 0) ∧
    footerCount (splitNl sampleC5) =
      (if isHeaderFooterLine
          ((splitNl sampleC5).getD ((splitNl sampleC5).length - 2) []) then 2
       else if isHeaderFooterLine
          ((splitNl sampleC5).getD ((splitNl sampleC5).length - 1) []) then 1
       else 0) ∧
    _remove_headers_footers_simple sampleC5 =
      joinWith ['\n'] (((splitNl sampleC5).drop (headerCount (splitNl sampleC5))).take
        ((splitNl sampleC5).length - headerCount (splitNl sampleC5) -
          footerCount (splitNl sampleC5)))) :=
  ⟨by decide, remove_simple_structure sampleC5 (by decide)⟩

/-- Claim C3 counterexample: `"A."` occurs on exactly one page of
`sampleC3`, yet it is in the exact-duplicate removal set, because the code
counts total occurrences (`Counter(all_sentences)`), not distinct pages. -/
theorem duplicate_not_cross_page :
    (pageSentencesOf sampleC3).countP (fun ps => decide (str "A." ∈ ps)) = 1 ∧
    str "A." ∈ duplicate_sentences sampleC3 := by decide

/-- Claim C6 counterexample: `"NN abc"` contains no digit, so its
digit-masked form has zero placeholders, yet the masked-structure
heuristic flags it: the code counts `'N'` characters of the masked string,
conflating pre-existing letters `N` with placeholders. -/
theorem masked_structure_flags_without_placeholders :
    str "NN abc" ∈ strategy2Flags sampleC6 ∧
    ∀ c ∈ str "NN abc", c.isDigit = false := by decide

/-- Counting positions in `range` through `getD` equals counting list
elements. -/
theorem countP_range_getD (L : List Str) (P : Str → Bool) :
    (List.range L.length).countP (fun j => P (L.getD j [])) = L.countP P := by
  induction L with
  | nil => rfl
  | cons a t ih =>
    rw [List.length_cons, List.range_succ_eq_map, List.countP_cons,
      List.countP_map]
    rw [show ((fun j => P ((a :: t).getD j [])) ∘ Nat.succ) =
        (fun j => P (t.getD j [])) from funext (fun j => by
          simp [Function.comp, List.getD_cons_succ])]
    rw [ih, List.countP_cons, List.getD_cons_zero]

/-- Removing the self-position from a same-predicate count over a
duplicate-free index list. -/
theorem countP_erase_self {R : List Nat} {i : Nat} (hnd : R.Nodup)
    (hi : i ∈ R) (Q : Nat → Bool) (hQ : Q i = true) :
    R.countP (fun j => decide (j ≠ i) && Q j) + 1 = R.countP Q := by
  induction R with
  | nil => simp at hi
  | cons a r ih =>
    rw [List.countP_cons, List.countP_cons]
    by_cases ha : a = i
    · subst ha
      have hnr : a ∉ r := (List.nodup_cons.mp hnd).1
      have hcongr : r.countP (fun j => decide (j ≠ a) && Q j) = r.countP Q := by
        apply List.countP_congr
        intro j hj
        have : j ≠ a := fun hja => hnr (hja ▸ hj)
        simp [this]
      have hd : (decide (a ≠ a) && Q a) = false := by simp
      rw [hd, hcongr, hQ]
      simp
    · have hir : i ∈ r := by
        rcases List.mem_cons.mp hi with h | h
        · exact absurd h.symm ha
        · exact h
      have hrec := ih (List.nodup_cons.mp hnd).2 hir
      have hane : decide (a ≠ i) = true := by simp [ha]
      rw [hane]
      by_cases hQa : Q a = true
      · simp only [hQa, Bool.true_and, if_true]
        omega
      · simp only [hQa, Bool.true_and, if_false]
        omega

/-- Claim C6 (amended): the masked-structure heuristic flags exactly the
sentences whose digit-masked form has length at least 5, contains at least
two `'N'` characters (placeholders or pre-existing letters `N` alike), and
occurs as the masked form of at least 3 positions of the sentence list
(the sentence itself plus at least 2 others). -/
theorem strategy2_characterization (sentences : List Str) (s : Str) :
    s ∈ strategy2Flags sentences ↔
      (s ∈ sentences ∧ 5 ≤ (maskDigits s).length ∧
       2 ≤ (maskDigits s).count 'N' ∧
       3 ≤ sentences.countP (fun t => decide (maskDigits t = maskDigits s))) := by
  constructor
  · intro hs
    unfold strategy2Flags at hs
    rw [List.mem_map] at hs
    obtain ⟨i, hifil, hieq⟩ := hs
    rw [List.mem_filter, List.mem_range] at hifil
    obtain ⟨hilt, hcond⟩ := hifil
    simp only [Bool.and_eq_true, decide_eq_true_eq] at hcond
    obtain ⟨⟨hlen, hcount⟩, hstruct⟩ := hcond
    subst hieq
    refine ⟨?_, hlen, hcount, ?_⟩
    · rw [List.getD_eq_getElem _ _ hilt]
      exact List.getElem_mem hilt
    · have hQ : (fun j => decide (maskDigits (sentences.getD j []) =
          maskDigits (sentences.getD i []))) i = true := by simp
      have hkey := countP_erase_self (List.nodup_range _)
        (List.mem_range.mpr hilt)
        (fun j => decide (maskDigits (sentences.getD j []) =
          maskDigits (sentences.getD i []))) hQ
      simp only [] at hkey
      rw [countP_range_getD sentences
        (fun t => decide (maskDigits t = maskDigits (sentences.getD i [])))] at hkey
      rw [← List.countP_eq_length_filter] at hstruct
      omega
  · rintro ⟨hmem, hlen, hcount, hcnt⟩
    obtain ⟨i, hilt, hieq⟩ := List.mem_iff_getElem.mp hmem
    have hgetD : sentences.getD i [] = s := by
      rw [List.getD_eq_getElem _ _ hilt, hieq]
    unfold strategy2Flags
    rw [List.mem_map]
    refine ⟨i, ?_, hgetD⟩
    rw [List.mem_filter, List.mem_range]
    refine ⟨hilt, ?_⟩
    simp only [Bool.and_eq_true, decide_eq_true_eq]
    rw [hgetD]
    refine ⟨⟨hlen, hcount⟩, ?_⟩
    have hQ : (fun j => decide (maskDigits (sentences.getD j []) =
        maskDigits s)) i = true := by
      simp only []
      rw [hgetD]
      simp
    have hkey := countP_erase_self (List.nodup_range _)
      (List.mem_range.mpr hilt)
      (fun j => decide (maskDigits (sentences.getD j []) = maskDigits s)) hQ
    simp only [] at hkey
    rw [countP_range_getD sentences
      (fun t => decide (maskDigits t = maskDigits s))] at hkey
    rw [← List.countP_eq_length_filter]
    omega

/-- Claim C3 (amended): in multi-page removal, the exact-duplicate
component contains exactly the sentences that occur at least twice in
total across the document's pages (occurrences on the same page count
separately), and every occurrence of such a sentence is removed from
every page. -/
theorem duplicate_sentences_characterization (text : Str)
    (hmulti : 1 < (pagesOf text).length) : ∀ s : Str,
    (s ∈ duplicate_sentences text ↔ 2 ≤ (allSentencesOf text).count s) ∧
    (s ∈ duplicate_sentences text →
      ∀ ps ∈ cleanedPageSentencesOf text, s ∉ ps) := by
  intro s
  constructor
  · constructor
    · intro hs
      unfold duplicate_sentences at hs
      rw [List.mem_filter] at hs
      simpa using hs.2
    · intro hcount
      unfold duplicate_sentences
      rw [List.mem_filter]
      refine ⟨List.count_pos_iff.mp (by omega), by simpa using hcount⟩
  · intro hs ps hps hmem
    unfold cleanedPageSentencesOf at hps
    rw [List.mem_map] at hps
    obtain ⟨ps0, _, hps0⟩ := hps
    rw [← hps0] at hmem
    rw [List.mem_filter] at hmem
    have hnot : s ∉ sentences_to_remove text := by simpa using hmem.2
    exact hnot (List.mem_append_left _ hs)

/-- Witness for C3 at the concrete document `"A. A. --- B."`. -/
theorem duplicate_sentences_characterization_witness :
    1 < (pagesOf sampleC3).length ∧
    ((str "A." ∈ duplicate_sentences sampleC3 ↔
        2 ≤ (allSentencesOf sampleC3).count (str "A.")) ∧
     (str "A." ∈ duplicate_sentences sampleC3 →
        ∀ ps ∈ cleanedPageSentencesOf sampleC3, str "A." ∉ ps)) :=
  ⟨by decide, duplicate_sentences_characterization sampleC3 (by decide) (str "A.")⟩

theorem findPunctBackward_le (content : Str) :
    ∀ i, findPunctBackward content i ≤ i := by
  intro i
  induction i with
  | zero => exact le_refl 0
  | succ i ih =>
    rw [findPunctBackward]
    by_cases h : validBreakAt content i = true
    · rw [if_pos h]
    · rw [if_neg h]
      omega

theorem findPunctBackward_spec (content : Str) : ∀ i,
    (0 < findPunctBackward content i →
      validBreakAt content (findPunctBackward content i - 1) = true) ∧
    (∀ p, findPunctBackward content i ≤ p → p < i →
      validBreakAt content p = false) := by
  intro i
  induction i with
  | zero => exact ⟨fun h => absurd h (by simp [findPunctBackward]), fun p h1 h2 => by omega⟩
  | succ i ih =>
    rw [findPunctBackward]
    by_cases h : validBreakAt content i = true
    · rw [if_pos h]
      exact ⟨fun _ => by simpa using h, fun p h1 h2 => by omega⟩
    · rw [if_neg h]
      refine ⟨ih.1, fun p h1 h2 => ?_⟩
      by_cases hp : p = i
      · subst hp
        simpa using h
      · exact ih.2 p h1 (by omega)

theorem findPunctForwardAux_spec (content : Str) : ∀ (fuel index : Nat),
    content.length ≤ index + fuel → index ≤ content.length →
    (index ≤ findPunctForwardAux content fuel index ∧
     findPunctForwardAux content fuel index ≤ content.length ∧
     ((findPunctForwardAux content fuel index = content.length ∧
        ∀ p, index ≤ p → p < content.length → validBreakAt content p = false) ∨
      (0 < findPunctForwardAux content fuel index ∧
        validBreakAt content (findPunctForwardAux content fuel index - 1) = true ∧
        ∀ p, index ≤ p → p < findPunctForwardAux content fuel index - 1 →
          validBreakAt content p = false))) := by
  intro fuel
  induction fuel with
  | zero =>
    intro index hfuel hle
    have : index = content.length := by omega
    rw [findPunctForwardAux]
    exact ⟨le_refl _, by omega, Or.inl ⟨this, fun p h1 h2 => by omega⟩⟩
  | succ fuel ih =>
    intro index hfuel hle
    rw [findPunctForwardAux]
    by_cases hlt : index < content.length
    · rw [if_pos hlt]
      by_cases hv : validBreakAt content index = true
      · rw [if_pos hv]
        exact ⟨by omega, by omega,
          Or.inr ⟨by omega, by simpa using hv, fun p h1 h2 => by omega⟩⟩
      · rw [if_neg hv]
        obtain ⟨ha, hb, hc⟩ := ih (index + 1) (by omega) (by omega)
        refine ⟨by omega, hb, ?_⟩
        rcases hc with ⟨heq, hall⟩ | ⟨hpos, hvr, hall⟩
        · refine Or.inl ⟨heq, fun p h1 h2 => ?_⟩
          by_cases hp : p = index
          · subst hp; simpa using hv
          · exact hall p (by omega) h2
        · refine Or.inr ⟨hpos, hvr, fun p h1 h2 => ?_⟩
          by_cases hp : p = index
          · subst hp; simpa using hv
          · exact hall p (by omega) h2
    · rw [if_neg hlt]
      have : index = content.length := by omega
      exact ⟨le_refl _, by omega, Or.inl ⟨this, fun p h1 h2 => by omega⟩⟩

/-- Claim C7 counterexample: snapping backward from position 5 returns 3,
which is not the position of any sentence-final punctuation mark (the
mark sits at position 2); the function returns the position immediately
after the mark, not the mark's own position. -/
theorem find_nearest_returns_after_mark :
    _find_nearest_punctuation sampleC7 5 "backward" = 3 ∧
    decide (sampleC7.getD 3 ' ' ∈ punctuations) = false := by decide

/-- Claim C7 (amended): `_find_nearest_punctuation` scans in the requested
direction for the nearest position holding one of `.!?;` that is not a
period inside a decimal number and not within 5 characters of another
period, and returns the position immediately AFTER that mark; if no such
mark exists it returns 0 (backward) or `len(content)` (forward). -/
theorem find_nearest_punctuation_spec (content : Str) (index : Nat)
    (h : index ≤ content.length) :
    (_find_nearest_punctuation content index "backward" ≤ index ∧
     (0 < _find_nearest_punctuation content index "backward" →
        validBreakAt content
          (_find_nearest_punctuation content index "backward" - 1) = true) ∧
     (∀ p, _find_nearest_punctuation content index "backward" ≤ p → p < index →
        validBreakAt content p = false)) ∧
    (index ≤ _find_nearest_punctuation content index "forward" ∧
     _find_nearest_punctuation content index "forward" ≤ content.length ∧
     ((_find_nearest_punctuation content index "forward" = content.length ∧
        ∀ p, index ≤ p → p < content.length → validBreakAt content p = false) ∨
      (0 < _find_nearest_punctuation content index "forward" ∧
        validBreakAt content
          (_find_nearest_punctuation content index "forward" - 1) = true ∧
        ∀ p, index ≤ p →
          p < _find_nearest_punctuation content index "forward" - 1 →
          validBreakAt content p = false))) := by
  constructor
  · have hb : _find_nearest_punctuation content index "backward" =
        findPunctBackward content index := by
      unfold _find_nearest_punctuation
      rw [if_pos rfl]
    rw [hb]
    exact ⟨findPunctBackward_le content index,
      (findPunctBackward_spec content index).1,
      (findPunctBackward_spec content index).2⟩
  · have hf : _find_nearest_punctuation content index "forward" =
        findPunctForwardAux content (content.length - index) index := by
      unfold _find_nearest_punctuation
      rw [if_neg (by decide)]
    rw [hf]
    exact findPunctForwardAux_spec content (content.length - index) index
      (by omega) h

/-- Witness for C7 at `"ab. cd"`, index 5. -/
theorem find_nearest_punctuation_spec_witness :
    5 ≤ sampleC7.length ∧
    ((_find_nearest_punctuation sampleC7 5 "backward" ≤ 5 ∧
     (0 < _find_nearest_punctuation sampleC7 5 "backward" →
        validBreakAt sampleC7
          (_find_nearest_punctuation sampleC7 5 "backward" - 1) = true) ∧
     (∀ p, _find_nearest_punctuation sampleC7 5 "backward" ≤ p → p < 5 →
        validBreakAt sampleC7 p = false)) ∧
    (5 ≤ _find_nearest_punctuation sampleC7 5 "forward" ∧
     _find_nearest_punctuation sampleC7 5 "forward" ≤ sampleC7.length ∧
     ((_find_nearest_punctuation sampleC7 5 "forward" = sampleC7.length ∧
        ∀ p, 5 ≤ p → p < sampleC7.length → validBreakAt sampleC7 p = false) ∨
      (0 < _find_nearest_punctuation sampleC7 5 "forward" ∧
        validBreakAt sampleC7
          (_find_nearest_punctuation sampleC7 5 "forward" - 1) = true ∧
        ∀ p, 5 ≤ p →
          p < _find_nearest_punctuation sampleC7 5 "forward" - 1 →
          validBreakAt sampleC7 p = false)))) :=
  ⟨by decide, find_nearest_punctuation_spec sampleC7 5 (by decide)⟩

/-- Claim C10: the boundary-snapping helper is total (a structurally
recursive Lean function) and in-range: for every content, every starting
index in `[0, len(content)]` and either direction, the result lies in
`[0, len(content)]`.  Every character access in the embedding is a `getD`
guarded by the same bounds checks as the source
(`index > 0`, `index < len - 1`, `0 <= check_index < len`). -/
theorem find_nearest_punctuation_in_range (content : Str) (index : Nat)
    (direction : String) (h : index ≤ content.length) :
    _find_nearest_punctuation content index direction ≤ content.length := by
  unfold _find_nearest_punctuation
  by_cases hd : direction = "backward"
  · rw [if_pos hd]
    exact le_trans (findPunctBackward_le content index) h
  · rw [if_neg hd]
    exact (findPunctForwardAux_spec content (content.length - index) index
      (by omega) h).2.1

/-- Witness for C10. -/
theorem find_nearest_punctuation_in_range_witness :
    5 ≤ sampleC7.length ∧
    _find_nearest_punctuation sampleC7 5 "backward" ≤ sampleC7.length :=
  ⟨by decide, find_nearest_punctuation_in_range sampleC7 5 "backward" (by decide)⟩
